import Mathlib

/-!
Verification of the route evaluator `evaluar.py`.

The program verifies a candidate route against a directed weighted graph and a
set of workers (location, radius).  The core pieces embedded here, translated
from the source:

* `load_graph` (via `graphN` / `graphAdj`): node count and adjacency lists
  built from an edge list; empty edge lists raise a configuration error.
* `dijkstra_multi_source`: lazy-deletion multi-source Dijkstra over the
  adjacency lists, with the finite sentinel `INF = 10^18` for unreached nodes.
  The Python `while pq` loop is modelled with an explicit fuel bound
  (`sources.length + totalDeg adj + 1`); `none` models a run that would need
  more iterations, which is proven impossible for non-negative weights.
* `arcScan`: the route-validation/costing loop of `eval_instance`
  (range check first, then first-matching-edge lookup, fail-fast).
* `coverageScan`: the coverage loop, including Python's negative-index
  semantics for `dist_to_route[v]` (`pyGetDist`).
* `eval_instance`: the orchestrator, producing a `Result` record.

Python floats are modelled as exact rationals (`ℚ`); machine float rounding is
outside the scope of the embedding.  File I/O and text parsing are out of scope
(the spec treats the loader as an external collaborator); the embedded
`eval_instance` takes the already-parsed edge list, worker list and route.
-/

namespace Evaluar

attribute [local semireducible] Rat.add Rat.mul Rat.sub

/-- The sentinel `INF = 10**18` from the source. -/
def INF : ℚ := 1000000000000000000

/-- The coverage tolerance `1e-9` from the source, as an exact rational
(written with `mkRat` so that concrete runs reduce). -/
def tol : ℚ := mkRat 1 1000000000

/-- Adjacency lists: position `u` holds the outgoing `(target, weight)` pairs of `u`. -/
abbrev Adj := List (List (ℕ × ℚ))

/-- The adjacency row of node `u` (rows past the end are empty). -/
def adjAt (adj : Adj) (u : ℕ) : List (ℕ × ℚ) := adj.getD u []

/-- Distance-table lookup with the `INF` default (in-range positions are the
table entries; the default is only a formal device). -/
def dAt (dist : List ℚ) (u : ℕ) : ℚ := dist.getD u INF

/-- Node count of `load_graph`: `1 + max` over all endpoint ids of the edges. -/
def graphN (edges : List (ℕ × ℕ × ℚ)) : ℕ :=
  1 + (edges.map (fun e => max e.1 e.2.1)).foldl max 0

/-- Adjacency construction of `load_graph`: `adj[i].append((j, c))` for each
edge `(i, j, c)`, in edge order. -/
def graphAdj (edges : List (ℕ × ℕ × ℚ)) : Adj :=
  edges.foldl (fun adj e => adj.set e.1 (adjAt adj e.1 ++ [(e.2.1, e.2.2)]))
    (List.replicate (graphN edges) [])

/-- Model of `load_graph`: raises `ValueError("grafo.csv vacío")` on an empty edge list,
otherwise returns the node count and adjacency lists. -/
def load_graph (edges : List (ℕ × ℕ × ℚ)) : Except String (ℕ × Adj) :=
  if edges.isEmpty then Except.error "grafo.csv vacío"
  else Except.ok (graphN edges, graphAdj edges)

/-- Smallest entry of a nonempty frontier in `heapq` order: lexicographic on
`(distance, node)`. -/
def pqMinAux (x : ℚ × ℕ) : List (ℚ × ℕ) → ℚ × ℕ
  | [] => x
  | y :: ys => pqMinAux (if x.1 < y.1 ∨ (x.1 = y.1 ∧ x.2 ≤ y.2) then x else y) ys

/-- Pop order of `heapq.heappop` on the frontier multiset: the lexicographically least
`(distance, node)` pair, `none` on an empty frontier. -/
def pqMin : List (ℚ × ℕ) → Option (ℚ × ℕ)
  | [] => none
  | x :: xs => some (pqMinAux x xs)

/-- The inner relaxation loop of `dijkstra_multi_source`: for each `(v, w)` in
the popped node's adjacency row, if `d + w < dist[v]` update `dist[v]` and push
`(d + w, v)`. -/
def relax (d : ℚ) : List (ℕ × ℚ) → List ℚ → List (ℚ × ℕ) → List ℚ × List (ℚ × ℕ)
  | [], dist, pq => (dist, pq)
  | e :: es, dist, pq =>
    if d + e.2 < dAt dist e.1 then
      relax d es (dist.set e.1 (d + e.2)) (pq ++ [(d + e.2, e.1)])
    else relax d es dist pq

/-- The seeding loop of `dijkstra_multi_source`: each in-range, not-yet-seen
source gets distance `0` and a frontier entry `(0, s)`. -/
def seedInit (N : ℕ) : List ℤ → List ℚ → List (ℚ × ℕ) → List ℤ →
    List ℚ × List (ℚ × ℕ) × List ℤ
  | [], dist, pq, seen => (dist, pq, seen)
  | s :: ss, dist, pq, seen =>
    if 0 ≤ s ∧ s < (N : ℤ) ∧ s ∉ seen then
      seedInit N ss (dist.set s.toNat 0) (pq ++ [(0, s.toNat)]) (seen ++ [s])
    else seedInit N ss dist pq seen

/-- Total number of directed edges stored in the adjacency lists. -/
def totalDeg (adj : Adj) : ℕ := (adj.map List.length).sum

/-- The `while pq` loop of `dijkstra_multi_source` with an explicit iteration
bound: pop the frontier minimum, skip it when stale (`d ≠ dist[u]`), otherwise
relax the popped node's outgoing edges.  `none` marks fuel exhaustion. -/
def dijkstraLoop (adj : Adj) : ℕ → List ℚ → List (ℚ × ℕ) → Option (List ℚ)
  | 0, dist, pq => if pq.isEmpty then some dist else none
  | fuel + 1, dist, pq =>
    match pqMin pq with
    | none => some dist
    | some e =>
      let pq1 := pq.erase e
      if e.1 = dAt dist e.2 then
        let st := relax e.1 (adjAt adj e.2) dist pq1
        dijkstraLoop adj fuel st.1 st.2
      else dijkstraLoop adj fuel dist pq1

/-- Model of `dijkstra_multi_source(N, adj, sources)`: distances from the nearest
in-range source, `INF` sentinel elsewhere.  The fuel
`sources.length + totalDeg adj + 1` bounds the loop iterations; it suffices
whenever all edge weights are non-negative. -/
def dijkstra_multi_source (N : ℕ) (adj : Adj) (sources : List ℤ) : Option (List ℚ) :=
  let st := seedInit N sources (List.replicate N INF) [] []
  dijkstraLoop adj (sources.length + totalDeg adj + 1) st.1 st.2.1

/-- Reason string for an out-of-range arc, as in the source. -/
def outOfRangeMsg (a b : ℤ) : String :=
  "Nodo fuera de rango en arco " ++ toString a ++ "->" ++ toString b

/-- Reason string for a missing arc, as in the source. -/
def missingMsg (a b : ℤ) : String :=
  "Arco inexistente " ++ toString a ++ "->" ++ toString b

/-- The arc-validation and costing loop of `eval_instance`: for each
consecutive pair, first the range check, then the first-matching-edge lookup;
the first defect aborts the scan with its reason. -/
def arcScan (N : ℕ) (adj : Adj) : List (ℤ × ℤ) → ℚ → Except String ℚ
  | [], cost => Except.ok cost
  | p :: rest, cost =>
    if ¬(0 ≤ p.1 ∧ p.1 < (N : ℤ) ∧ 0 ≤ p.2 ∧ p.2 < (N : ℤ)) then
      Except.error (outOfRangeMsg p.1 p.2)
    else
      match (adjAt adj p.1.toNat).find? (fun q => (q.1 : ℤ) == p.2) with
      | none => Except.error (missingMsg p.1 p.2)
      | some q => arcScan N adj rest (cost + q.2)

/-- The defect of a single consecutive pair, mirroring one iteration of the
arc loop: range check first, then edge lookup; `none` when the pair is fine. -/
def pairDefect (N : ℕ) (adj : Adj) (a b : ℤ) : Option String :=
  if ¬(0 ≤ a ∧ a < (N : ℤ) ∧ 0 ≤ b ∧ b < (N : ℤ)) then some (outOfRangeMsg a b)
  else
    match (adjAt adj a.toNat).find? (fun q => (q.1 : ℤ) == b) with
    | none => some (missingMsg a b)
    | some _ => none

/-- Weight of the first matching `(target, weight)` entry for arc `a → b`
(`0` as a formal default when no entry matches). -/
def firstWeight (adj : Adj) (a b : ℤ) : ℚ :=
  (((adjAt adj a.toNat).find? (fun q => (q.1 : ℤ) == b)).map Prod.snd).getD 0

/-- Python list indexing `dist[v]` for an integer index: plain indexing for
`0 ≤ v < len`, negative indexing (`len + v`) for `-len ≤ v < 0`, and an
`IndexError` otherwise. -/
def pyGetDist (dist : List ℚ) (v : ℤ) : Except String ℚ :=
  if 0 ≤ v ∧ v < (dist.length : ℤ) then Except.ok (dAt dist v.toNat)
  else if -(dist.length : ℤ) ≤ v ∧ v < 0 then
    Except.ok (dAt dist ((dist.length : ℤ) + v).toNat)
  else Except.error "IndexError: list index out of range"

/-- The coverage loop of `eval_instance`: for the `k`-th worker `(v, r)`, read
`dist_to_route[v]` (Python indexing) and record `(k, v, r, d)` when
`d > r + 1e-9`. -/
def coverageScan (dist : List ℚ) : List (ℤ × ℚ) → ℕ → Except String (List (ℕ × ℤ × ℚ × ℚ))
  | [], _ => Except.ok []
  | w :: rest, k =>
    match pyGetDist dist w.1 with
    | Except.error e => Except.error e
    | Except.ok d =>
      match coverageScan dist rest (k + 1) with
      | Except.error e => Except.error e
      | Except.ok uncov =>
        Except.ok (if w.2 + tol < d then (k, w.1, w.2, d) :: uncov else uncov)

/-- Model of `list(dict.fromkeys(route))`: deduplication keeping first occurrences. -/
def dedupFirst (l : List ℤ) : List ℤ :=
  l.foldl (fun acc x => if x ∈ acc then acc else acc ++ [x]) []

/-- The result record assembled by `pack` in `eval_instance`, with the three
optional diagnostic fields. -/
structure Result where
  feasible : Bool
  cost : WithTop ℚ
  workers : ℕ
  uncovered : ℕ
  reason : Option String
  uncovered_examples : Option (List (ℕ × ℤ × ℚ × ℚ))
  warning : Option String
deriving DecidableEq

instance {ε α : Type} [DecidableEq ε] [DecidableEq α] :
    DecidableEq (Except ε α) := fun a b =>
  match a, b with
  | Except.error e1, Except.error e2 => decidable_of_iff (e1 = e2) (by simp)
  | Except.error _, Except.ok _ => Decidable.isFalse (by simp)
  | Except.ok _, Except.error _ => Decidable.isFalse (by simp)
  | Except.ok a1, Except.ok a2 => decidable_of_iff (a1 = a2) (by simp)

/-- Model of `pack(feasible, cost, uncovered, **extra)` with the worker count `W`. -/
def pack (W : ℕ) (feasible : Bool) (cost : WithTop ℚ) (uncovered : ℕ)
    (reason : Option String) (ex : Option (List (ℕ × ℤ × ℚ × ℚ)))
    (warn : Option String) : Result :=
  ⟨feasible, cost, W, uncovered, reason, ex, warn⟩

/-- The advisory warning string of the source. -/
def warnMsg : String := "Se recomienda ruta 0→…→0; esta no inicia/termina en 0."

/-- The core of `eval_instance` on already-parsed inputs (file loading is the
external loader's concern): build the graph, early-return on a trivial route,
scan the arcs (fail-fast), then run multi-source Dijkstra from the
first-occurrence-deduplicated route nodes and the coverage loop, and assemble
the record.  `Except.error` models a raised exception. -/
def eval_instance (edges : List (ℕ × ℕ × ℚ)) (workers : List (ℤ × ℚ))
    (route : List ℤ) : Except String Result :=
  match load_graph edges with
  | Except.error e => Except.error e
  | Except.ok (N, adj) =>
    let W := workers.length
    if route.length < 2 then
      Except.ok (pack W false ⊤ W (some "Ruta vacía o trivial") none none)
    else
      match arcScan N adj (route.zip route.tail) 0 with
      | Except.error msg => Except.ok (pack W false ⊤ W (some msg) none none)
      | Except.ok cost =>
        match dijkstra_multi_source N adj (dedupFirst route) with
        | none => Except.error "nonterminating relaxation"
        | some dist =>
          match coverageScan dist workers 0 with
          | Except.error e => Except.error e
          | Except.ok uncov =>
            let feasible := uncov.isEmpty
            let ex := if feasible then none else some (uncov.take 5)
            let warn :=
              if route.headI ≠ 0 ∨ route.getLastI ≠ 0 then some warnMsg else none
            Except.ok (pack W feasible (↑cost) uncov.length none ex warn)

/-! Paths, seeds, and the well-formedness of adjacency lists. -/

/-- Directed walks in the adjacency structure, recorded with their total
weight: the empty walk at a node, or a walk extended by one stored edge. -/
inductive IsPath (adj : Adj) : ℕ → ℕ → ℚ → Prop
  | refl (u : ℕ) : IsPath adj u u 0
  | snoc {u v t : ℕ} {c w : ℚ} :
      IsPath adj u v c → (t, w) ∈ adjAt adj v → IsPath adj u t (c + w)

/-- The sources actually accepted by the seeding loop: in-range members of the
source list. -/
def validSeed (N : ℕ) (sources : List ℤ) (u : ℕ) : Prop :=
  (u : ℤ) ∈ sources ∧ u < N

/-- Predicate stating that `c` is the weight of some walk from an accepted seed to `u`. -/
def FromSeeds (adj : Adj) (N : ℕ) (sources : List ℤ) (u : ℕ) (c : ℚ) : Prop :=
  ∃ s, validSeed N sources s ∧ IsPath adj s u c

/-- Adjacency lists are well-formed for node count `N`: `N` rows, all stored
targets in range, all stored weights non-negative. -/
def WFAdj (N : ℕ) (adj : Adj) : Prop :=
  adj.length = N ∧ ∀ u, ∀ p ∈ adjAt adj u, p.1 < N ∧ 0 ≤ p.2

/-! The Dijkstra loop invariant.  `P` is the (ghost) list of already-processed
nodes; it never appears in the executable code, only in the proofs. -/

/-- Two frontier entries for the same node never share a key. -/
def pqRel (a b : ℚ × ℕ) : Prop := a.2 = b.2 → a.1 ≠ b.1

/-- Invariant of the `while pq` loop.  `dist` only decreases over time; every
finite entry is realised by a walk from an accepted seed; every finite node is
either still on the frontier at its current distance or fully relaxed;
processed nodes are fully relaxed, dominated by the whole frontier, and only
strictly stale entries for them remain. -/
structure DInv (N : ℕ) (adj : Adj) (sources : List ℤ)
    (dist : List ℚ) (pq : List (ℚ × ℕ)) (P : List ℕ) : Prop where
  hlen : dist.length = N
  hle : ∀ x, dAt dist x ≤ INF
  hseed : ∀ x, validSeed N sources x → dAt dist x ≤ 0
  hreal : ∀ x, x < N → dAt dist x = INF ∨
    (dAt dist x < INF ∧ FromSeeds adj N sources x (dAt dist x))
  hpq : ∀ e ∈ pq, e.2 < N ∧ dAt dist e.2 ≤ e.1 ∧ e.1 < INF
  hrelax : ∀ x, x < N → dAt dist x < INF →
    (dAt dist x, x) ∈ pq ∨ ∀ p ∈ adjAt adj x, dAt dist p.1 ≤ dAt dist x + p.2
  hPrelax : ∀ x ∈ P, ∀ p ∈ adjAt adj x, dAt dist p.1 ≤ dAt dist x + p.2
  hPdom : ∀ x ∈ P, ∀ e ∈ pq, dAt dist x ≤ e.1
  hPstale : ∀ e ∈ pq, e.2 ∈ P → dAt dist e.2 < e.1
  hpair : pq.Pairwise pqRel

/-- Invariant holding while the edges of the popped node `u` (popped at key
`d = dist[u]`) are being relaxed. -/
structure RInv (N : ℕ) (adj : Adj) (sources : List ℤ) (P : List ℕ) (u : ℕ) (d : ℚ)
    (dist : List ℚ) (pq : List (ℚ × ℕ)) : Prop where
  hlen : dist.length = N
  hle : ∀ x, dAt dist x ≤ INF
  hseed : ∀ x, validSeed N sources x → dAt dist x ≤ 0
  hreal : ∀ x, x < N → dAt dist x = INF ∨
    (dAt dist x < INF ∧ FromSeeds adj N sources x (dAt dist x))
  hpq : ∀ e ∈ pq, e.2 < N ∧ dAt dist e.2 ≤ e.1 ∧ e.1 < INF
  hrelax : ∀ x, x < N → x ≠ u → dAt dist x < INF →
    (dAt dist x, x) ∈ pq ∨ ∀ p ∈ adjAt adj x, dAt dist p.1 ≤ dAt dist x + p.2
  hPrelax : ∀ x ∈ P, ∀ p ∈ adjAt adj x, dAt dist p.1 ≤ dAt dist x + p.2
  hPd : ∀ x ∈ P, dAt dist x ≤ d
  hPdom : ∀ x ∈ P, ∀ e ∈ pq, dAt dist x ≤ e.1
  hPstale : ∀ e ∈ pq, e.2 ∈ P → dAt dist e.2 < e.1
  hpair : pq.Pairwise pqRel
  hdu : dAt dist u = d
  hudom : ∀ e ∈ pq, d ≤ e.1
  hustale : ∀ e ∈ pq, e.2 = u → d < e.1
  hpath : FromSeeds adj N sources u d

/-- Total degree of the nodes not yet processed. -/
def remCost (N : ℕ) (adj : Adj) (P : List ℕ) : ℕ :=
  (((List.range N).filter (fun x => decide (x ∉ P))).map
    (fun x => (adjAt adj x).length)).sum

/-- Invariant of the seeding loop: distances are `0` exactly at the already
accepted (seen) seeds, the frontier holds exactly one `(0, s)` entry per
accepted seed. -/
structure SInv (N : ℕ) (dist : List ℚ) (pq : List (ℚ × ℕ)) (seen : List ℤ) : Prop where
  hlen : dist.length = N
  hzero_or_inf : ∀ u, dAt dist u = 0 ∨ dAt dist u = INF
  hzero_seen : ∀ u, dAt dist u = 0 → u < N ∧ (u : ℤ) ∈ seen
  hseen : ∀ z ∈ seen, 0 ≤ z ∧ z < (N : ℤ) ∧ dAt dist z.toNat = 0
  hpq : ∀ e ∈ pq, e.1 = 0 ∧ e.2 < N ∧ dAt dist e.2 = 0
  hpq_zero : ∀ u, dAt dist u = 0 → (0, u) ∈ pq
  hnodup : (pq.map Prod.snd).Nodup
  hcount : pq.length ≤ seen.length

/-! Basic facts about the distance table, the frontier minimum, and the
structural behaviour of the loops. -/

lemma INF_pos : (0 : ℚ) < INF := by norm_num [INF]

lemma tol_pos : (0 : ℚ) < tol := by decide

lemma dAt_set (dist : List ℚ) (i j : ℕ) (a : ℚ) :
    dAt (dist.set i a) j = if i = j ∧ i < dist.length then a else dAt dist j := by
  simp only [dAt, List.getD_eq_getElem?_getD, List.getElem?_set]
  by_cases hij : i = j
  · subst hij
    by_cases hi : i < dist.length
    · simp [hi]
    · have hnone : dist[i]? = none := List.getElem?_eq_none (by omega)
      simp [hi, hnone]
  · simp [hij]

lemma dAt_replicate (N u : ℕ) : dAt (List.replicate N INF) u = INF := by
  simp only [dAt, List.getD_eq_getElem?_getD, List.getElem?_replicate]
  by_cases h : u < N <;> simp [h]

lemma pqMinAux_mem (x : ℚ × ℕ) (l : List (ℚ × ℕ)) : pqMinAux x l ∈ x :: l := by
  induction l generalizing x with
  | nil => simp [pqMinAux]
  | cons y ys ih =>
    simp only [pqMinAux]
    by_cases hc : x.1 < y.1 ∨ (x.1 = y.1 ∧ x.2 ≤ y.2)
    · rw [if_pos hc]
      rcases List.mem_cons.mp (ih x) with h' | h'
      · rw [h']; exact List.mem_cons_self _ _
      · exact List.mem_cons_of_mem _ (List.mem_cons_of_mem _ h')
    · rw [if_neg hc]
      rcases List.mem_cons.mp (ih y) with h' | h'
      · rw [h']; exact List.mem_cons_of_mem _ (List.mem_cons_self _ _)
      · exact List.mem_cons_of_mem _ (List.mem_cons_of_mem _ h')

lemma pqMinAux_le (x : ℚ × ℕ) (l : List (ℚ × ℕ)) :
    ∀ y ∈ x :: l, (pqMinAux x l).1 ≤ y.1 := by
  induction l generalizing x with
  | nil =>
    intro y hy
    rcases List.mem_cons.mp hy with h | h
    · subst h; simp [pqMinAux]
    · simp at h
  | cons z zs ih =>
    intro y hy
    simp only [pqMinAux]
    set w := if x.1 < z.1 ∨ (x.1 = z.1 ∧ x.2 ≤ z.2) then x else z with hw
    have hwx : w.1 ≤ x.1 ∧ w.1 ≤ z.1 := by
      by_cases hc : x.1 < z.1 ∨ (x.1 = z.1 ∧ x.2 ≤ z.2)
      · rw [hw, if_pos hc]
        rcases hc with h | h
        · exact ⟨le_refl _, le_of_lt h⟩
        · exact ⟨le_refl _, le_of_eq h.1⟩
      · rw [hw, if_neg hc]
        push_neg at hc
        exact ⟨hc.1, le_refl _⟩
    have hself : (pqMinAux w zs).1 ≤ w.1 := ih w w (List.mem_cons_self _ _)
    rcases List.mem_cons.mp hy with h | h
    · subst h; exact le_trans hself hwx.1
    rcases List.mem_cons.mp h with h' | h'
    · subst h'; exact le_trans hself hwx.2
    · exact ih w y (List.mem_cons_of_mem _ h')

lemma pqMin_eq_none {l : List (ℚ × ℕ)} : pqMin l = none ↔ l = [] := by
  cases l <;> simp [pqMin]

lemma pqMin_mem {l : List (ℚ × ℕ)} {e : ℚ × ℕ} (h : pqMin l = some e) : e ∈ l := by
  cases l with
  | nil => simp [pqMin] at h
  | cons x xs =>
    simp only [pqMin, Option.some.injEq] at h
    subst h; exact pqMinAux_mem x xs

lemma pqMin_le {l : List (ℚ × ℕ)} {e : ℚ × ℕ} (h : pqMin l = some e) :
    ∀ y ∈ l, e.1 ≤ y.1 := by
  cases l with
  | nil => simp [pqMin] at h
  | cons x xs =>
    simp only [pqMin, Option.some.injEq] at h
    subst h; exact pqMinAux_le x xs

/-- In a frontier whose entries for a common node have pairwise distinct keys,
each entry value occurs at most once. -/
lemma count_le_one_of_pairwise {l : List (ℚ × ℕ)}
    (h : l.Pairwise fun a b => a.2 = b.2 → a.1 ≠ b.1) (x : ℚ × ℕ) : l.count x ≤ 1 := by
  induction l with
  | nil => simp
  | cons a t ih =>
    rcases List.pairwise_cons.mp h with ⟨ha, ht⟩
    rw [List.count_cons]
    by_cases hx : x = a
    · subst hx
      have hnot : x ∉ t := fun hmem => (ha x hmem rfl) rfl
      rw [List.count_eq_zero.mpr hnot]
      simp
    · have hbeq : (a == x) = false := beq_eq_false_iff_ne.mpr (Ne.symm hx)
      rw [hbeq]
      simpa using ih ht

lemma not_mem_erase_self_of_pairwise {l : List (ℚ × ℕ)} {x : ℚ × ℕ}
    (h : l.Pairwise fun a b => a.2 = b.2 → a.1 ≠ b.1) : x ∉ l.erase x := by
  intro hmem
  have h1 : l.count x ≤ 1 := count_le_one_of_pairwise h x
  have h2 : 1 ≤ (l.erase x).count x := List.one_le_count_iff.mpr hmem
  have h3 : (l.erase x).count x = l.count x - 1 := List.count_erase_self x l
  omega

/-- Elements surviving an erase are related (in one direction or the other) to
the erased element, provided it was present. -/
lemma rel_of_mem_erase {α : Type} [BEq α] [LawfulBEq α] {R : α → α → Prop} :
    ∀ {l : List α} {a : α}, l.Pairwise R → a ∈ l → ∀ b ∈ l.erase a, R a b ∨ R b a := by
  intro l
  induction l with
  | nil => simp
  | cons c t ih =>
    intro a hp ha b hb
    rcases List.pairwise_cons.mp hp with ⟨hc, ht⟩
    by_cases hac : c = a
    · subst hac
      rw [List.erase_cons_head] at hb
      exact Or.inl (hc b hb)
    · rw [List.erase_cons_tail (by simpa using hac)] at hb
      rcases List.mem_cons.mp hb with hbc | hbt
      · subst hbc
        have hat : a ∈ t := by
          rcases List.mem_cons.mp ha with h | h
          · exact absurd h.symm hac
          · exact h
        exact Or.inr (hc a hat)
      · have hat : a ∈ t := by
          rcases List.mem_cons.mp ha with h | h
          · exact absurd h.symm hac
          · exact h
        exact ih ht hat b hbt

lemma relax_length (d : ℚ) :
    ∀ (es : List (ℕ × ℚ)) (dist : List ℚ) (pq : List (ℚ × ℕ)),
      ((relax d es dist pq).1).length = dist.length := by
  intro es
  induction es with
  | nil => intro dist pq; simp [relax]
  | cons e es ih =>
    intro dist pq
    simp only [relax]
    by_cases hc : d + e.2 < dAt dist e.1
    · rw [if_pos hc, ih, List.length_set]
    · rw [if_neg hc, ih]

lemma relax_mono (d : ℚ) :
    ∀ (es : List (ℕ × ℚ)) (dist : List ℚ) (pq : List (ℚ × ℕ)) (u : ℕ),
      dAt (relax d es dist pq).1 u ≤ dAt dist u := by
  intro es
  induction es with
  | nil => intro dist pq u; simp [relax]
  | cons e es ih =>
    intro dist pq u
    simp only [relax]
    by_cases hc : d + e.2 < dAt dist e.1
    · rw [if_pos hc]
      refine le_trans (ih _ _ u) ?_
      rw [dAt_set]
      split
      · next h => exact h.1 ▸ le_of_lt hc
      · exact le_refl _
    · rw [if_neg hc]; exact ih _ _ u

lemma relax_pq_length (d : ℚ) :
    ∀ (es : List (ℕ × ℚ)) (dist : List ℚ) (pq : List (ℚ × ℕ)),
      ((relax d es dist pq).2).length ≤ pq.length + es.length := by
  intro es
  induction es with
  | nil => intro dist pq; simp [relax]
  | cons e es ih =>
    intro dist pq
    simp only [relax]
    by_cases hc : d + e.2 < dAt dist e.1
    · rw [if_pos hc]
      refine le_trans (ih _ _) ?_
      simp only [List.length_append, List.length_cons, List.length_singleton,
        List.length_nil]
      omega
    · rw [if_neg hc]
      refine le_trans (ih _ _) ?_
      simp only [List.length_cons]
      omega

lemma dijkstraLoop_length (adj : Adj) :
    ∀ (fuel : ℕ) (dist : List ℚ) (pq : List (ℚ × ℕ)) (dist' : List ℚ),
      dijkstraLoop adj fuel dist pq = some dist' → dist'.length = dist.length := by
  intro fuel
  induction fuel with
  | zero =>
    intro dist pq dist' h
    simp only [dijkstraLoop] at h
    split at h
    · exact (Option.some.injEq _ _ ▸ h).symm ▸ rfl
    · exact absurd h (by simp)
  | succ fuel ih =>
    intro dist pq dist' h
    simp only [dijkstraLoop] at h
    rcases he : pqMin pq with _ | e
    · rw [he] at h
      simp only at h
      exact (Option.some.injEq _ _ ▸ h).symm ▸ rfl
    · rw [he] at h
      simp only at h
      split at h
      · have := ih _ _ _ h
        rwa [relax_length] at this
      · exact ih _ _ _ h

lemma seedInit_length (N : ℕ) :
    ∀ (ss : List ℤ) (dist : List ℚ) (pq : List (ℚ × ℕ)) (seen : List ℤ),
      ((seedInit N ss dist pq seen).1).length = dist.length := by
  intro ss
  induction ss with
  | nil => intro dist pq seen; simp [seedInit]
  | cons s ss ih =>
    intro dist pq seen
    simp only [seedInit]
    split
    · rw [ih, List.length_set]
    · rw [ih]

lemma dijkstra_length {N : ℕ} {adj : Adj} {sources : List ℤ} {dist : List ℚ}
    (h : dijkstra_multi_source N adj sources = some dist) : dist.length = N := by
  unfold dijkstra_multi_source at h
  have := dijkstraLoop_length adj _ _ _ _ h
  rw [seedInit_length, List.length_replicate] at this
  exact this

lemma pathWeight_nonneg {N : ℕ} {adj : Adj} (hWF : WFAdj N adj) {u t : ℕ} {c : ℚ}
    (h : IsPath adj u t c) : 0 ≤ c := by
  induction h with
  | refl => exact le_refl 0
  | snoc _ hmem ih => exact add_nonneg ih (hWF.2 _ _ hmem).2

lemma path_src_lt {N : ℕ} {adj : Adj} (hWF : WFAdj N adj) {v t : ℕ} {w : ℚ}
    (hmem : (t, w) ∈ adjAt adj v) : v < N := by
  by_contra hv
  push_neg at hv
  have hempty : adjAt adj v = [] := by
    unfold adjAt
    apply List.getD_eq_default
    rw [hWF.1]
    exact hv
  rw [hempty] at hmem
  simp at hmem

/-- Relaxing any sublist of the popped node's adjacency row preserves the
mid-relaxation invariant and leaves every processed edge relaxed. -/
lemma relax_keeps {N : ℕ} {adj : Adj} {sources : List ℤ} {P : List ℕ} {u : ℕ} {d : ℚ}
    (hWF : WFAdj N adj) :
    ∀ (todo : List (ℕ × ℚ)) (dist : List ℚ) (pq : List (ℚ × ℕ)),
      (∀ p ∈ todo, p ∈ adjAt adj u) →
      RInv N adj sources P u d dist pq →
      RInv N adj sources P u d (relax d todo dist pq).1 (relax d todo dist pq).2 ∧
      ∀ p ∈ todo, dAt (relax d todo dist pq).1 p.1 ≤ d + p.2 := by
  intro todo
  induction todo with
  | nil =>
    intro dist pq _ hinv
    exact ⟨by simpa [relax] using hinv, by simp⟩
  | cons e es ih =>
    intro dist pq htodo hinv
    have hmem_u : e ∈ adjAt adj u := htodo e (List.mem_cons_self _ _)
    obtain ⟨hvN, hwnn⟩ := hWF.2 u e hmem_u
    simp only [relax]
    by_cases hcond : d + e.2 < dAt dist e.1
    · rw [if_pos hcond]
      have hvlen : e.1 < dist.length := by rw [hinv.hlen]; exact hvN
      have hset : ∀ x, dAt (dist.set e.1 (d + e.2)) x =
          if e.1 = x then d + e.2 else dAt dist x := by
        intro x
        rw [dAt_set]
        by_cases hx : e.1 = x
        · subst hx
          simp [hvlen]
        · simp [hx]
      have hvu : e.1 ≠ u := by
        intro h
        rw [h, hinv.hdu] at hcond
        linarith
      have hvP : e.1 ∉ P := by
        intro hP
        have h1 := hinv.hPd e.1 hP
        linarith
      have hdec : ∀ x, dAt (dist.set e.1 (d + e.2)) x ≤ dAt dist x := by
        intro x
        rw [hset]
        by_cases hx : e.1 = x
        · rw [if_pos hx, ← hx]
          exact le_of_lt hcond
        · rw [if_neg hx]
      have hPsame : ∀ x ∈ P, dAt (dist.set e.1 (d + e.2)) x = dAt dist x := by
        intro x hx
        rw [hset, if_neg (fun h => hvP (by rw [h]; exact hx))]
      have husame : dAt (dist.set e.1 (d + e.2)) u = dAt dist u := by
        rw [hset, if_neg hvu]
      have hnewINF : d + e.2 < INF := lt_of_lt_of_le hcond (hinv.hle e.1)
      have hinv' : RInv N adj sources P u d (dist.set e.1 (d + e.2))
          (pq ++ [(d + e.2, e.1)]) := by
        refine
          { hlen := by rw [List.length_set, hinv.hlen]
            hle := fun x => le_trans (hdec x) (hinv.hle x)
            hseed := fun x hx => le_trans (hdec x) (hinv.hseed x hx)
            hreal := ?_
            hpq := ?_
            hrelax := ?_
            hPrelax := fun x hx p hp => by
              rw [hPsame x hx]
              exact le_trans (hdec p.1) (hinv.hPrelax x hx p hp)
            hPd := fun x hx => by rw [hPsame x hx]; exact hinv.hPd x hx
            hPdom := ?_
            hPstale := ?_
            hpair := ?_
            hdu := by rw [husame, hinv.hdu]
            hudom := ?_
            hustale := ?_
            hpath := hinv.hpath }
        · intro x hxN
          by_cases hx : e.1 = x
          · right
            subst hx
            rw [hset, if_pos rfl]
            refine ⟨hnewINF, ?_⟩
            obtain ⟨s, hs, hp⟩ := hinv.hpath
            refine ⟨s, hs, ?_⟩
            exact IsPath.snoc hp (show (e.1, e.2) ∈ adjAt adj u from by
              simpa using hmem_u)
          · rw [hset, if_neg hx]
            exact hinv.hreal x hxN
        · intro e' he'
          rcases List.mem_append.mp he' with h | h
          · obtain ⟨h1, h2, h3⟩ := hinv.hpq e' h
            exact ⟨h1, le_trans (hdec e'.2) h2, h3⟩
          · simp only [List.mem_singleton] at h
            subst h
            refine ⟨hvN, ?_, hnewINF⟩
            show dAt (dist.set e.1 (d + e.2)) e.1 ≤ d + e.2
            rw [hset, if_pos rfl]
        · intro x hxN hxu hxfin
          by_cases hx : e.1 = x
          · left
            subst hx
            rw [hset, if_pos rfl]
            exact List.mem_append.mpr (Or.inr (by simp))
          · rw [hset, if_neg hx] at hxfin ⊢
            rcases hinv.hrelax x hxN hxu hxfin with hl | hr
            · exact Or.inl (List.mem_append.mpr (Or.inl hl))
            · right
              intro p hp
              exact le_trans (hdec p.1) (hr p hp)
        · intro x hx e' he'
          rw [hPsame x hx]
          rcases List.mem_append.mp he' with h | h
          · exact hinv.hPdom x hx e' h
          · simp only [List.mem_singleton] at h
            subst h
            refine le_trans (hinv.hPd x hx) ?_
            show d ≤ d + e.2
            linarith
        · intro e' he' hP
          rcases List.mem_append.mp he' with h | h
          · have hne : e'.2 ≠ e.1 := fun hc => hvP (hc ▸ hP)
            rw [hset, if_neg (fun hc => hne hc.symm)]
            exact hinv.hPstale e' h hP
          · simp only [List.mem_singleton] at h
            subst h
            exact absurd hP hvP
        · rw [List.pairwise_append]
          refine ⟨hinv.hpair, List.pairwise_singleton _ _, ?_⟩
          intro a ha b hb
          simp only [List.mem_singleton] at hb
          subst hb
          intro hab
          obtain ⟨-, h2, -⟩ := hinv.hpq a ha
          rw [hab] at h2
          exact ne_of_gt (lt_of_lt_of_le hcond h2)
        · intro e' he'
          rcases List.mem_append.mp he' with h | h
          · exact hinv.hudom e' h
          · simp only [List.mem_singleton] at h
            subst h
            show d ≤ d + e.2
            linarith
        · intro e' he' hu
          rcases List.mem_append.mp he' with h | h
          · exact hinv.hustale e' h hu
          · simp only [List.mem_singleton] at h
            subst h
            exact absurd hu hvu
      obtain ⟨hfin, hrel⟩ := ih _ _ (fun p hp => htodo p (List.mem_cons_of_mem _ hp)) hinv'
      refine ⟨hfin, ?_⟩
      intro p hp
      rcases List.mem_cons.mp hp with h | h
      · subst h
        refine le_trans (relax_mono d es _ _ p.1) ?_
        rw [hset, if_pos rfl]
      · exact hrel p h
    · rw [if_neg hcond]
      obtain ⟨hfin, hrel⟩ := ih dist pq (fun p hp => htodo p (List.mem_cons_of_mem _ hp)) hinv
      refine ⟨hfin, ?_⟩
      intro p hp
      rcases List.mem_cons.mp hp with h | h
      · subst h
        exact le_trans (relax_mono d es dist pq p.1) (le_of_not_lt hcond)
      · exact hrel p h

/-! Termination accounting: remaining relaxation work, and the main loop
lemma. -/

lemma filter_sum_split (f : ℕ → ℕ) (u : ℕ) (P : List ℕ) :
    ∀ l : List ℕ, l.Nodup → u ∈ l → u ∉ P →
      ((l.filter (fun x => decide (x ∉ P))).map f).sum =
        f u + ((l.filter (fun x => decide (x ∉ u :: P))).map f).sum := by
  intro l
  induction l with
  | nil => simp
  | cons a t ih =>
    intro hnd hmem hP
    rcases List.nodup_cons.mp hnd with ⟨hat, hndt⟩
    by_cases hau : a = u
    · subst hau
      have hcongr : t.filter (fun x => decide (x ∉ a :: P)) =
          t.filter (fun x => decide (x ∉ P)) := by
        apply List.filter_congr
        intro x hx
        have hxa : x ≠ a := fun h => hat (h ▸ hx)
        simp [List.mem_cons, hxa]
      simp only [List.filter_cons, decide_eq_true_eq]
      rw [if_pos hP, if_neg (by simp)]
      rw [hcongr]
      simp
    · have hmt : u ∈ t := by
        rcases List.mem_cons.mp hmem with h | h
        · exact absurd h.symm hau
        · exact h
      have hhead : (decide (a ∉ u :: P)) = (decide (a ∉ P)) := by
        simp [List.mem_cons, hau]
      simp only [List.filter_cons, hhead]
      by_cases haP : a ∉ P
      · rw [if_pos (by simpa using haP), if_pos (by simpa using haP)]
        simp only [List.map_cons, List.sum_cons]
        rw [ih hndt hmt hP]
        rw [Nat.add_left_comm]
      · rw [if_neg (by simpa using haP), if_neg (by simpa using haP)]
        exact ih hndt hmt hP

lemma remCost_cons {N : ℕ} {adj : Adj} {P : List ℕ} {u : ℕ}
    (huN : u < N) (huP : u ∉ P) :
    remCost N adj P = (adjAt adj u).length + remCost N adj (u :: P) :=
  filter_sum_split _ u P (List.range N) (List.nodup_range N)
    (List.mem_range.mpr huN) huP

lemma range_map_adjAt (adj : Adj) :
    ((List.range adj.length).map (fun x => (adjAt adj x).length)).sum = totalDeg adj := by
  induction adj with
  | nil => simp [totalDeg]
  | cons a t ih =>
    rw [show (a :: t).length = t.length + 1 from rfl, List.range_succ_eq_map]
    simp only [List.map_cons, List.map_map, List.sum_cons]
    have hmap : (List.range t.length).map ((fun x => (adjAt (a :: t) x).length) ∘ Nat.succ) =
        (List.range t.length).map (fun x => (adjAt t x).length) := by
      apply List.map_congr_left
      intro x hx
      rfl
    rw [hmap, ih]
    simp [totalDeg, adjAt]

lemma remCost_nil {N : ℕ} {adj : Adj} (h : adj.length = N) :
    remCost N adj [] = totalDeg adj := by
  subst h
  unfold remCost
  have hfilter : (List.range adj.length).filter (fun x => decide (x ∉ ([] : List ℕ))) =
      List.range adj.length := by
    apply List.filter_eq_self.mpr
    intro x hx
    simp
  rw [hfilter, range_map_adjAt]

/-- The loop invariant plus remaining fuel yields successful termination with
the invariant holding at an empty frontier. -/
lemma dijkstraLoop_ok {N : ℕ} {adj : Adj} {sources : List ℤ} (hWF : WFAdj N adj) :
    ∀ (fuel : ℕ) (dist : List ℚ) (pq : List (ℚ × ℕ)) (P : List ℕ),
      DInv N adj sources dist pq P →
      pq.length + remCost N adj P < fuel →
      ∃ dist' P', dijkstraLoop adj fuel dist pq = some dist' ∧
        DInv N adj sources dist' [] P' := by
  intro fuel
  induction fuel with
  | zero =>
    intro dist pq P _ hbound
    omega
  | succ fuel ih =>
    intro dist pq P hinv hbound
    rcases he : pqMin pq with _ | e
    · have hpqnil : pq = [] := pqMin_eq_none.mp he
      subst hpqnil
      exact ⟨dist, P, by simp [dijkstraLoop, pqMin], hinv⟩
    · have hmem := pqMin_mem he
      have hminle := pqMin_le he
      obtain ⟨heN, hlee, heINF⟩ := hinv.hpq e hmem
      have hpos : 0 < pq.length :=
        List.length_pos.mpr (fun h => by subst h; simp at hmem)
      have herase : (pq.erase e).length = pq.length - 1 := List.length_erase_of_mem hmem
      by_cases hcond : e.1 = dAt dist e.2
      · have huP : e.2 ∉ P := fun hP =>
          (ne_of_gt (hinv.hPstale e hmem hP)) hcond
        have hrinv : RInv N adj sources P e.2 e.1 dist (pq.erase e) := by
          refine
            { hlen := hinv.hlen
              hle := hinv.hle
              hseed := hinv.hseed
              hreal := hinv.hreal
              hpq := fun e' he' => hinv.hpq e' ((List.erase_sublist e pq).subset he')
              hrelax := ?_
              hPrelax := hinv.hPrelax
              hPd := fun x hx => hinv.hPdom x hx e hmem
              hPdom := fun x hx e' he' =>
                hinv.hPdom x hx e' ((List.erase_sublist e pq).subset he')
              hPstale := fun e' he' hP =>
                hinv.hPstale e' ((List.erase_sublist e pq).subset he') hP
              hpair := List.Pairwise.sublist (List.erase_sublist e pq) hinv.hpair
              hdu := hcond.symm
              hudom := fun e' he' => hminle e' ((List.erase_sublist e pq).subset he')
              hustale := ?_
              hpath := ?_ }
          · intro x hxN hxu hxfin
            rcases hinv.hrelax x hxN hxfin with hl | hr
            · left
              refine (List.mem_erase_of_ne ?_).mpr hl
              intro hcontr
              apply hxu
              rw [← hcontr]
            · exact Or.inr hr
          · intro e' he' hu
            have hle' : e.1 ≤ e'.1 := hminle e' ((List.erase_sublist e pq).subset he')
            rcases rel_of_mem_erase hinv.hpair hmem e' he' with hR | hR
            · exact lt_of_le_of_ne hle' (hR hu.symm)
            · exact lt_of_le_of_ne hle' (Ne.symm (hR hu))
          · have hltd : dAt dist e.2 < INF := by rw [← hcond]; exact heINF
            rcases hinv.hreal e.2 heN with hINF | ⟨-, hfs⟩
            · rw [hINF] at hltd
              exact absurd hltd (lt_irrefl _)
            · rw [hcond]
              exact hfs
        obtain ⟨hfin, hrel⟩ :=
          relax_keeps hWF (adjAt adj e.2) dist (pq.erase e) (fun p hp => hp) hrinv
        have hdinv : DInv N adj sources
            (relax e.1 (adjAt adj e.2) dist (pq.erase e)).1
            (relax e.1 (adjAt adj e.2) dist (pq.erase e)).2 (e.2 :: P) := by
          refine
            { hlen := hfin.hlen
              hle := hfin.hle
              hseed := hfin.hseed
              hreal := hfin.hreal
              hpq := hfin.hpq
              hrelax := ?_
              hPrelax := ?_
              hPdom := ?_
              hPstale := ?_
              hpair := hfin.hpair }
          · intro x hxN hxfin
            by_cases hxu : x = e.2
            · subst hxu
              right
              intro p hp
              rw [hfin.hdu]
              exact hrel p hp
            · exact hfin.hrelax x hxN hxu hxfin
          · intro x hx p hp
            rcases List.mem_cons.mp hx with h | h
            · subst h
              rw [hfin.hdu]
              exact hrel p hp
            · exact hfin.hPrelax x h p hp
          · intro x hx e' he'
            rcases List.mem_cons.mp hx with h | h
            · subst h
              rw [hfin.hdu]
              exact hfin.hudom e' he'
            · exact hfin.hPdom x h e' he'
          · intro e' he' hP
            rcases List.mem_cons.mp hP with h | h
            · rw [h, hfin.hdu]
              exact hfin.hustale e' he' h
            · exact hfin.hPstale e' he' h
        have hbound' : (relax e.1 (adjAt adj e.2) dist (pq.erase e)).2.length +
            remCost N adj (e.2 :: P) < fuel := by
          have h1 := relax_pq_length e.1 (adjAt adj e.2) dist (pq.erase e)
          have h2 := @remCost_cons N adj P e.2 heN huP
          omega
        obtain ⟨dist', P', heq, hterm⟩ := ih _ _ (e.2 :: P) hdinv hbound'
        refine ⟨dist', P', ?_, hterm⟩
        simp only [dijkstraLoop, he]
        rw [if_pos hcond]
        exact heq
      · have hdinv : DInv N adj sources dist (pq.erase e) P := by
          refine
            { hlen := hinv.hlen
              hle := hinv.hle
              hseed := hinv.hseed
              hreal := hinv.hreal
              hpq := fun e' he' => hinv.hpq e' ((List.erase_sublist e pq).subset he')
              hrelax := ?_
              hPrelax := hinv.hPrelax
              hPdom := fun x hx e' he' =>
                hinv.hPdom x hx e' ((List.erase_sublist e pq).subset he')
              hPstale := fun e' he' hP =>
                hinv.hPstale e' ((List.erase_sublist e pq).subset he') hP
              hpair := List.Pairwise.sublist (List.erase_sublist e pq) hinv.hpair }
          intro x hxN hxfin
          rcases hinv.hrelax x hxN hxfin with hl | hr
          · left
            refine (List.mem_erase_of_ne ?_).mpr hl
            intro hcontr
            apply hcond
            rw [← hcontr]
          · exact Or.inr hr
        obtain ⟨dist', P', heq, hterm⟩ := ih dist (pq.erase e) P hdinv (by omega)
        refine ⟨dist', P', ?_, hterm⟩
        simp only [dijkstraLoop, he]
        rw [if_neg hcond]
        exact heq

/-! The seeding loop: its invariant and the initial `DInv`. -/

lemma SInv_accept {N : ℕ} {dist : List ℚ} {pq : List (ℚ × ℕ)} {seen : List ℤ}
    (h : SInv N dist pq seen) {s : ℤ} (h0 : 0 ≤ s) (hN : s < (N : ℤ))
    (hns : s ∉ seen) :
    SInv N (dist.set s.toNat 0) (pq ++ [(0, s.toNat)]) (seen ++ [s]) := by
  have hsN : s.toNat < N := by omega
  have hslen : s.toNat < dist.length := by rw [h.hlen]; exact hsN
  have hcast : ((s.toNat : ℤ)) = s := Int.toNat_of_nonneg h0
  have hset : ∀ x, dAt (dist.set s.toNat 0) x =
      if s.toNat = x then 0 else dAt dist x := by
    intro x
    rw [dAt_set]
    by_cases hx : s.toNat = x
    · subst hx
      simp [hslen]
    · simp [hx]
  have hkeep : ∀ x, dAt dist x = 0 → dAt (dist.set s.toNat 0) x = 0 := by
    intro x hx
    rw [hset]
    by_cases hsx : s.toNat = x
    · simp [hsx]
    · simpa [hsx] using hx
  refine
    { hlen := by rw [List.length_set, h.hlen]
      hzero_or_inf := ?_
      hzero_seen := ?_
      hseen := ?_
      hpq := ?_
      hpq_zero := ?_
      hnodup := ?_
      hcount := by
        simp only [List.length_append, List.length_singleton]
        have := h.hcount
        omega }
  · intro u
    rw [hset]
    by_cases hsu : s.toNat = u
    · simp [hsu]
    · simpa [hsu] using h.hzero_or_inf u
  · intro u hu
    by_cases hsu : s.toNat = u
    · subst hsu
      refine ⟨hsN, ?_⟩
      rw [hcast]
      exact List.mem_append.mpr (Or.inr (by simp))
    · rw [hset, if_neg hsu] at hu
      obtain ⟨h1, h2⟩ := h.hzero_seen u hu
      exact ⟨h1, List.mem_append.mpr (Or.inl h2)⟩
  · intro z hz
    rcases List.mem_append.mp hz with hmem | hmem
    · obtain ⟨b1, b2, b3⟩ := h.hseen z hmem
      exact ⟨b1, b2, hkeep _ b3⟩
    · simp only [List.mem_singleton] at hmem
      subst hmem
      refine ⟨h0, hN, ?_⟩
      rw [hset, if_pos rfl]
  · intro e he
    rcases List.mem_append.mp he with hmem | hmem
    · obtain ⟨b1, b2, b3⟩ := h.hpq e hmem
      exact ⟨b1, b2, hkeep _ b3⟩
    · simp only [List.mem_singleton] at hmem
      subst hmem
      exact ⟨rfl, hsN, by rw [hset, if_pos rfl]⟩
  · intro u hu
    by_cases hsu : s.toNat = u
    · subst hsu
      exact List.mem_append.mpr (Or.inr (by simp))
    · rw [hset, if_neg hsu] at hu
      exact List.mem_append.mpr (Or.inl (h.hpq_zero u hu))
  · rw [List.map_append]
    rw [List.nodup_append]
    refine ⟨h.hnodup, by simp, ?_⟩
    intro x hx hx'
    simp only [List.map_cons, List.map_nil, List.mem_singleton] at hx'
    subst hx'
    obtain ⟨e, he, he2⟩ := List.exists_of_mem_map hx
    obtain ⟨-, -, b3⟩ := h.hpq e he
    rw [he2] at b3
    obtain ⟨-, hmem⟩ := h.hzero_seen _ b3
    rw [hcast] at hmem
    exact hns hmem

lemma seedInit_keeps (N : ℕ) :
    ∀ (ss : List ℤ) (dist : List ℚ) (pq : List (ℚ × ℕ)) (seen : List ℤ),
      SInv N dist pq seen →
      SInv N (seedInit N ss dist pq seen).1 (seedInit N ss dist pq seen).2.1
        (seedInit N ss dist pq seen).2.2 ∧
      (∀ z ∈ (seedInit N ss dist pq seen).2.2, z ∈ seen ∨ z ∈ ss) ∧
      (∀ z ∈ seen, z ∈ (seedInit N ss dist pq seen).2.2) ∧
      (∀ z ∈ ss, 0 ≤ z → z < (N : ℤ) → z ∈ (seedInit N ss dist pq seen).2.2) ∧
      (seedInit N ss dist pq seen).2.2.length ≤ seen.length + ss.length := by
  intro ss
  induction ss with
  | nil =>
    intro dist pq seen hinv
    refine ⟨by simpa [seedInit] using hinv, ?_, ?_, ?_, ?_⟩
    · intro z hz; exact Or.inl (by simpa [seedInit] using hz)
    · intro z hz; simpa [seedInit] using hz
    · intro z hz; simp at hz
    · simp [seedInit]
  | cons s ss ih =>
    intro dist pq seen hinv
    simp only [seedInit]
    by_cases hc : 0 ≤ s ∧ s < (N : ℤ) ∧ s ∉ seen
    · rw [if_pos hc]
      obtain ⟨hinv', hm1, hm2, hm3, hm4⟩ :=
        ih (dist.set s.toNat 0) (pq ++ [(0, s.toNat)]) (seen ++ [s])
          (SInv_accept hinv hc.1 hc.2.1 hc.2.2)
      refine ⟨hinv', ?_, ?_, ?_, ?_⟩
      · intro z hz
        rcases hm1 z hz with hm | hm
        · rcases List.mem_append.mp hm with hm' | hm'
          · exact Or.inl hm'
          · simp only [List.mem_singleton] at hm'
            exact Or.inr (hm' ▸ List.mem_cons_self _ _)
        · exact Or.inr (List.mem_cons_of_mem _ hm)
      · intro z hz
        exact hm2 z (List.mem_append.mpr (Or.inl hz))
      · intro z hz hz0 hzN
        rcases List.mem_cons.mp hz with h | h
        · subst h
          exact hm2 z (List.mem_append.mpr (Or.inr (by simp)))
        · exact hm3 z h hz0 hzN
      · refine le_trans hm4 ?_
        simp only [List.length_append, List.length_singleton, List.length_cons,
          List.length_nil]
        omega
    · rw [if_neg hc]
      obtain ⟨hinv', hm1, hm2, hm3, hm4⟩ := ih dist pq seen hinv
      refine ⟨hinv', ?_, hm2, ?_, ?_⟩
      · intro z hz
        rcases hm1 z hz with hm | hm
        · exact Or.inl hm
        · exact Or.inr (List.mem_cons_of_mem _ hm)
      · intro z hz hz0 hzN
        rcases List.mem_cons.mp hz with h | h
        · subst h
          have hzseen : z ∈ seen := by
            by_contra hns
            exact hc ⟨hz0, hzN, hns⟩
          exact hm2 z hzseen
        · exact hm3 z h hz0 hzN
      · refine le_trans hm4 ?_
        simp only [List.length_cons]
        omega

lemma INF_ne_zero : INF ≠ (0 : ℚ) := by norm_num [INF]

/-- For well-formed adjacency lists, multi-source Dijkstra terminates within
its fuel and its result satisfies the terminal loop invariant. -/
lemma dijkstra_ok {N : ℕ} {adj : Adj} {sources : List ℤ} (hWF : WFAdj N adj) :
    ∃ dist P, dijkstra_multi_source N adj sources = some dist ∧
      DInv N adj sources dist [] P := by
  have hinit : SInv N (List.replicate N INF) [] [] := by
    refine
      { hlen := List.length_replicate N INF
        hzero_or_inf := fun u => Or.inr (dAt_replicate N u)
        hzero_seen := fun u hu => absurd ((dAt_replicate N u).symm.trans hu) INF_ne_zero
        hseen := by simp
        hpq := by simp
        hpq_zero := fun u hu => absurd ((dAt_replicate N u).symm.trans hu) INF_ne_zero
        hnodup := by simp
        hcount := by simp }
  obtain ⟨hinv, hm1, -, hm3, hm4⟩ :=
    seedInit_keeps N sources (List.replicate N INF) [] [] hinit
  set st := seedInit N sources (List.replicate N INF) [] [] with hst
  have hdinv : DInv N adj sources st.1 st.2.1 [] := by
    refine
      { hlen := hinv.hlen
        hle := ?_
        hseed := ?_
        hreal := ?_
        hpq := ?_
        hrelax := ?_
        hPrelax := by simp
        hPdom := by simp
        hPstale := by simp
        hpair := ?_ }
    · intro x
      rcases hinv.hzero_or_inf x with h | h
      · rw [h]; exact le_of_lt INF_pos
      · rw [h]
    · intro x hx
      obtain ⟨hmem, hxN⟩ := hx
      have hz : ((x : ℤ)) ∈ st.2.2 := hm3 (x : ℤ) hmem (by omega) (by omega)
      obtain ⟨-, -, b3⟩ := hinv.hseen _ hz
      rw [Int.toNat_natCast] at b3
      rw [b3]
    · intro x hxN
      rcases hinv.hzero_or_inf x with h | h
      · right
        refine ⟨h ▸ INF_pos, ?_⟩
        obtain ⟨-, hmem⟩ := hinv.hzero_seen x h
        rcases hm1 _ hmem with hc | hc
        · simp at hc
        · rw [h]
          exact ⟨x, ⟨hc, hxN⟩, IsPath.refl x⟩
      · exact Or.inl h
    · intro e he
      obtain ⟨b1, b2, b3⟩ := hinv.hpq e he
      refine ⟨b2, ?_, ?_⟩
      · rw [b3, b1]
      · rw [b1]; exact INF_pos
    · intro x hxN hxfin
      left
      have hx0 : dAt st.1 x = 0 := by
        rcases hinv.hzero_or_inf x with h | h
        · exact h
        · rw [h] at hxfin; exact absurd hxfin (lt_irrefl _)
      rw [hx0]
      exact hinv.hpq_zero x hx0
    · have hp : st.2.1.Pairwise (fun a b => a.2 ≠ b.2) :=
        List.pairwise_map.mp hinv.hnodup
      exact hp.imp (fun hne => fun heq => absurd heq hne)
  have hbound : st.2.1.length + remCost N adj [] <
      sources.length + totalDeg adj + 1 := by
    have h1 : st.2.1.length ≤ st.2.2.length := hinv.hcount
    have h2 := hm4
    simp only [List.length_nil] at h2
    rw [remCost_nil hWF.1]
    omega
  obtain ⟨dist', P', heq, hterm⟩ := dijkstraLoop_ok hWF _ st.1 st.2.1 [] hdinv hbound
  exact ⟨dist', P', heq, hterm⟩

/-! Consequences of the terminal invariant: minimality over walks, and
independence of the result from seed order, duplication, and out-of-range
sources. -/

/-- At termination, distances are lower bounds on all seed-to-node walks whose
weight stays below the sentinel. -/
lemma terminal_min {N : ℕ} {adj : Adj} {sources : List ℤ} {dist : List ℚ}
    {P : List ℕ} (hWF : WFAdj N adj) (hterm : DInv N adj sources dist [] P)
    {s u : ℕ} {c : ℚ} (hp : IsPath adj s u c) :
    validSeed N sources s → c < INF → dAt dist u ≤ c := by
  induction hp with
  | refl =>
    intro hs _
    exact hterm.hseed _ hs
  | snoc hp' hmem ih =>
    intro hs hc
    have hw := (hWF.2 _ _ hmem).2
    have hc' := lt_of_le_of_lt (le_add_of_nonneg_right hw) hc
    have hv := ih hs hc'
    have hvN := path_src_lt hWF hmem
    have hvfin : dAt dist _ < INF := lt_of_le_of_lt hv hc'
    rcases hterm.hrelax _ hvN hvfin with hl | hr
    · simp at hl
    · refine le_trans (hr _ hmem) ?_
      linarith

lemma dAt_eq_getElem {dist : List ℚ} {i : ℕ} (h : i < dist.length) :
    dAt dist i = dist[i] := by
  simp [dAt, List.getD_eq_getElem?_getD, List.getElem?_eq_getElem h]

/-- Two runs over seed lists accepting the same seeds compute the same
distance table. -/
lemma dijkstra_unique {N : ℕ} {adj : Adj} {S S' : List ℤ} (hWF : WFAdj N adj)
    (hiff : ∀ x, validSeed N S x ↔ validSeed N S' x) :
    dijkstra_multi_source N adj S = dijkstra_multi_source N adj S' := by
  obtain ⟨d1, P1, h1, t1⟩ := @dijkstra_ok N adj S hWF
  obtain ⟨d2, P2, h2, t2⟩ := @dijkstra_ok N adj S' hWF
  rw [h1, h2]
  have key : ∀ i, i < N → dAt d1 i = dAt d2 i := by
    intro i hi
    have hle12 : dAt d1 i ≤ dAt d2 i := by
      rcases t2.hreal i hi with h | ⟨hfin, hfs⟩
      · rw [h]; exact t1.hle i
      · obtain ⟨s, hs, hp⟩ := hfs
        exact terminal_min hWF t1 hp ((hiff s).mpr hs) hfin
    have hle21 : dAt d2 i ≤ dAt d1 i := by
      rcases t1.hreal i hi with h | ⟨hfin, hfs⟩
      · rw [h]; exact t2.hle i
      · obtain ⟨s, hs, hp⟩ := hfs
        exact terminal_min hWF t2 hp ((hiff s).mp hs) hfin
    exact le_antisymm hle12 hle21
  have hlen : d1.length = d2.length := by rw [t1.hlen, t2.hlen]
  congr 1
  apply List.ext_getElem hlen
  intro i hi1 hi2
  have hiN : i < N := by rw [← t1.hlen]; exact hi1
  have := key i hiN
  rwa [dAt_eq_getElem hi1, dAt_eq_getElem hi2] at this

/-! Well-formedness of the graph built by `load_graph`. -/

lemma foldl_max_le_init (l : List ℕ) : ∀ a : ℕ, a ≤ l.foldl max a := by
  induction l with
  | nil => intro a; simp
  | cons y t ih =>
    intro a
    exact le_trans (le_max_left a y) (ih (max a y))

lemma mem_le_foldl_max (l : List ℕ) : ∀ x ∈ l, ∀ a : ℕ, x ≤ l.foldl max a := by
  induction l with
  | nil => simp
  | cons y t ih =>
    intro x hx a
    rcases List.mem_cons.mp hx with h | h
    · subst h
      exact le_trans (le_max_right a x) (foldl_max_le_init t (max a x))
    · exact ih x h (max a y)

lemma edge_lt_graphN {edges : List (ℕ × ℕ × ℚ)} :
    ∀ e ∈ edges, e.1 < graphN edges ∧ e.2.1 < graphN edges := by
  intro e he
  have hmem : max e.1 e.2.1 ∈ edges.map (fun e => max e.1 e.2.1) :=
    List.mem_map.mpr ⟨e, he, rfl⟩
  have hle := mem_le_foldl_max _ _ hmem 0
  unfold graphN
  omega

lemma adjAt_set (l : Adj) (i u : ℕ) (r : List (ℕ × ℚ)) :
    adjAt (l.set i r) u = if i = u ∧ i < l.length then r else adjAt l u := by
  simp only [adjAt, List.getD_eq_getElem?_getD, List.getElem?_set]
  by_cases hij : i = u
  · subst hij
    by_cases hi : i < l.length
    · simp [hi]
    · have hnone : l[i]? = none := List.getElem?_eq_none (by omega)
      simp [hi, hnone]
  · simp [hij]

lemma graphAdj_fold_length (step : List (ℕ × ℕ × ℚ)) :
    ∀ init : Adj,
      (step.foldl (fun adj e => adj.set e.1 (adjAt adj e.1 ++ [(e.2.1, e.2.2)])) init).length =
        init.length := by
  induction step with
  | nil => intro init; rfl
  | cons e es ih =>
    intro init
    rw [List.foldl_cons, ih, List.length_set]

lemma graphAdj_length (edges : List (ℕ × ℕ × ℚ)) :
    (graphAdj edges).length = graphN edges := by
  unfold graphAdj
  rw [graphAdj_fold_length, List.length_replicate]

lemma graphAdj_fold_mem (C : (ℕ × ℚ) → Prop) (es : List (ℕ × ℕ × ℚ)) :
    ∀ init : Adj,
      (∀ u, ∀ q ∈ adjAt init u, C q) →
      (∀ e ∈ es, C (e.2.1, e.2.2)) →
      ∀ u, ∀ q ∈ adjAt
        (es.foldl (fun adj e => adj.set e.1 (adjAt adj e.1 ++ [(e.2.1, e.2.2)])) init) u,
        C q := by
  induction es with
  | nil => intro init hinit _ u q hq; exact hinit u q hq
  | cons e es ih =>
    intro init hinit hes u q hq
    rw [List.foldl_cons] at hq
    refine ih _ ?_ (fun e' he' => hes e' (List.mem_cons_of_mem _ he')) u q hq
    intro u' q' hq'
    rw [adjAt_set] at hq'
    split at hq'
    · rcases List.mem_append.mp hq' with h | h
      · exact hinit _ q' h
      · simp only [List.mem_singleton] at h
        subst h
        exact hes e (List.mem_cons_self _ _)
    · exact hinit u' q' hq'

lemma load_graph_wf {edges : List (ℕ × ℕ × ℚ)} (hW : ∀ e ∈ edges, 0 ≤ e.2.2) :
    WFAdj (graphN edges) (graphAdj edges) := by
  refine ⟨graphAdj_length edges, ?_⟩
  intro u p hp
  refine graphAdj_fold_mem (fun q => q.1 < graphN edges ∧ 0 ≤ q.2) edges _ ?_ ?_ u p hp
  · intro u' q hq
    unfold adjAt at hq
    rcases lt_or_ge u' (List.replicate (graphN edges) ([] : List (ℕ × ℚ))).length with h | h
    · rw [List.getD_eq_getElem?_getD, List.getElem?_replicate, if_pos (by simpa using h)] at hq
      simp at hq
    · rw [List.getD_eq_default _ _ h] at hq
      simp at hq
  · intro e he
    exact ⟨(edge_lt_graphN e he).2, hW e he⟩

/-! Behaviour of the arc-validation loop. -/

lemma pairDefect_none {N : ℕ} {adj : Adj} {a b : ℤ}
    (h : pairDefect N adj a b = none) :
    (0 ≤ a ∧ a < (N : ℤ) ∧ 0 ≤ b ∧ b < (N : ℤ)) ∧
      ∃ q, (adjAt adj a.toNat).find? (fun q => (q.1 : ℤ) == b) = some q := by
  unfold pairDefect at h
  by_cases hr : 0 ≤ a ∧ a < (N : ℤ) ∧ 0 ≤ b ∧ b < (N : ℤ)
  · refine ⟨hr, ?_⟩
    rw [if_neg (by simpa using hr)] at h
    rcases hf : (adjAt adj a.toNat).find? (fun q => (q.1 : ℤ) == b) with _ | q
    · rw [hf] at h; simp at h
    · exact ⟨q, hf⟩
  · rw [if_pos (by simpa using hr)] at h
    simp at h

lemma arcScan_cons_ok {N : ℕ} {adj : Adj} {a b : ℤ}
    (h : pairDefect N adj a b = none) (rest : List (ℤ × ℤ)) (c : ℚ) :
    arcScan N adj ((a, b) :: rest) c =
      arcScan N adj rest (c + firstWeight adj a b) := by
  obtain ⟨hr, q, hq⟩ := pairDefect_none h
  simp only [arcScan]
  rw [if_neg (by simpa using hr), hq]
  have : firstWeight adj a b = q.2 := by
    unfold firstWeight
    rw [hq]
    rfl
  rw [this]

lemma arcScan_cons_err {N : ℕ} {adj : Adj} {a b : ℤ} {m : String}
    (h : pairDefect N adj a b = some m) (rest : List (ℤ × ℤ)) (c : ℚ) :
    arcScan N adj ((a, b) :: rest) c = Except.error m := by
  unfold pairDefect at h
  simp only [arcScan]
  by_cases hr : 0 ≤ a ∧ a < (N : ℤ) ∧ 0 ≤ b ∧ b < (N : ℤ)
  · rw [if_neg (by simpa using hr)] at h ⊢
    rcases hf : (adjAt adj a.toNat).find? (fun q => (q.1 : ℤ) == b) with _ | q
    · rw [hf] at h ⊢
      simp only [Option.some.injEq] at h
      rw [← h]
    · rw [hf] at h
      simp at h
  · rw [if_pos (by simpa using hr)] at h ⊢
    simp only [Option.some.injEq] at h
    rw [← h]

/-- A clean scan sums the first-matching-edge weights in route order. -/
lemma arcScan_ok {N : ℕ} {adj : Adj} :
    ∀ (pairs : List (ℤ × ℤ)) (c : ℚ),
      (∀ p ∈ pairs, pairDefect N adj p.1 p.2 = none) →
      arcScan N adj pairs c =
        Except.ok (c + (pairs.map (fun p => firstWeight adj p.1 p.2)).sum) := by
  intro pairs
  induction pairs with
  | nil => intro c _; simp [arcScan]
  | cons p rest ih =>
    intro c hall
    have hp := hall p (List.mem_cons_self _ _)
    rw [show p = (p.1, p.2) from rfl, arcScan_cons_ok hp rest c]
    rw [ih _ (fun q hq => hall q (List.mem_cons_of_mem _ hq))]
    simp only [List.map_cons, List.sum_cons]
    rw [add_assoc]

/-- Fail-fast: the first defective pair's reason is reported, whatever follows
it in the route. -/
lemma arcScan_first_defect {N : ℕ} {adj : Adj} {a b : ℤ} {m : String} :
    ∀ (pre : List (ℤ × ℤ)),
      (∀ p ∈ pre, pairDefect N adj p.1 p.2 = none) →
      pairDefect N adj a b = some m →
      ∀ (rest : List (ℤ × ℤ)) (c : ℚ),
        arcScan N adj (pre ++ (a, b) :: rest) c = Except.error m := by
  intro pre
  induction pre with
  | nil =>
    intro _ hdef rest c
    simpa using arcScan_cons_err hdef rest c
  | cons p t ih =>
    intro hpre hdef rest c
    have hp := hpre p (List.mem_cons_self _ _)
    rw [List.cons_append, show p = (p.1, p.2) from rfl, arcScan_cons_ok hp]
    exact ih (fun q hq => hpre q (List.mem_cons_of_mem _ hq)) hdef rest _

/-! Behaviour of the coverage loop. -/

lemma pyGetDist_ok {dist : List ℚ} {v : ℤ}
    (h : -(dist.length : ℤ) ≤ v ∧ v < (dist.length : ℤ)) :
    ∃ d, pyGetDist dist v = Except.ok d := by
  unfold pyGetDist
  by_cases h0 : 0 ≤ v ∧ v < (dist.length : ℤ)
  · rw [if_pos h0]
    exact ⟨_, rfl⟩
  · rw [if_neg h0, if_pos (by omega)]
    exact ⟨_, rfl⟩

lemma coverageScan_ok {dist : List ℚ} :
    ∀ (workers : List (ℤ × ℚ)) (k : ℕ),
      (∀ w ∈ workers, -(dist.length : ℤ) ≤ w.1 ∧ w.1 < (dist.length : ℤ)) →
      ∃ L, coverageScan dist workers k = Except.ok L := by
  intro workers
  induction workers with
  | nil => intro k _; exact ⟨[], rfl⟩
  | cons w rest ih =>
    intro k hall
    obtain ⟨d, hd⟩ := pyGetDist_ok (hall w (List.mem_cons_self _ _))
    obtain ⟨L, hL⟩ := ih (k + 1) (fun w' hw' => hall w' (List.mem_cons_of_mem _ hw'))
    refine ⟨if w.2 + tol < d then (k, w.1, w.2, d) :: L else L, ?_⟩
    simp only [coverageScan]
    rw [hd, hL]

/-- A worker whose looked-up distance exceeds its radius (plus tolerance) is
recorded in the uncovered list at its index. -/
lemma coverageScan_mem {dist : List ℚ} {v : ℤ} {r d : ℚ}
    (hd : pyGetDist dist v = Except.ok d) (hr : r + tol < d) :
    ∀ (workers : List (ℤ × ℚ)) (k0 k : ℕ) (L : List (ℕ × ℤ × ℚ × ℚ)),
      workers[k0]? = some (v, r) →
      coverageScan dist workers k = Except.ok L →
      (k + k0, v, r, d) ∈ L := by
  intro workers
  induction workers with
  | nil =>
    intro k0 k L hk
    simp at hk
  | cons w rest ih =>
    intro k0 k L hk hscan
    simp only [coverageScan] at hscan
    rcases k0 with _ | k0
    · simp only [List.getElem?_cons_zero, Option.some.injEq] at hk
      subst hk
      rw [hd] at hscan
      rcases hL' : coverageScan dist rest (k + 1) with e | L'
      · rw [hL'] at hscan; simp at hscan
      · rw [hL'] at hscan
        simp only [Except.ok.injEq] at hscan
        subst hscan
        rw [if_pos hr]
        simp
    · simp only [List.getElem?_cons_succ] at hk
      rcases hdw : pyGetDist dist w.1 with e | dw
      · rw [hdw] at hscan; simp at hscan
      · rw [hdw] at hscan
        rcases hL' : coverageScan dist rest (k + 1) with e | L'
        · rw [hL'] at hscan; simp at hscan
        · rw [hL'] at hscan
          simp only [Except.ok.injEq] at hscan
          subst hscan
          have hmem := ih k0 (k + 1) L' hk hL'
          have harith : k + 1 + k0 = k + (k0 + 1) := by omega
          rw [harith] at hmem
          by_cases hc : w.2 + tol < dw
          · rw [if_pos hc]
            exact List.mem_cons_of_mem _ hmem
          · rw [if_neg hc]
            exact hmem

/-! Unfolding the evaluator along its three control paths. -/

lemma isEmpty_false_of_ne {edges : List (ℕ × ℕ × ℚ)} (h : edges ≠ []) :
    edges.isEmpty = false := by
  cases edges with
  | nil => exact absurd rfl h
  | cons e es => rfl

lemma eval_empty {workers : List (ℤ × ℚ)} {route : List ℤ} :
    eval_instance [] workers route = Except.error "grafo.csv vacío" := rfl

lemma eval_trivial {edges : List (ℕ × ℕ × ℚ)} {workers : List (ℤ × ℚ)}
    {route : List ℤ} (hne : edges ≠ []) (hlt : route.length < 2) :
    eval_instance edges workers route =
      Except.ok (pack workers.length false ⊤ workers.length
        (some "Ruta vacía o trivial") none none) := by
  simp only [eval_instance, load_graph, isEmpty_false_of_ne hne, Bool.false_eq_true,
    if_false, if_pos hlt]

lemma eval_arc_error {edges : List (ℕ × ℕ × ℚ)} {workers : List (ℤ × ℚ)}
    {route : List ℤ} {m : String} (hne : edges ≠ []) (hlen : ¬ route.length < 2)
    (harc : arcScan (graphN edges) (graphAdj edges) (route.zip route.tail) 0 =
      Except.error m) :
    eval_instance edges workers route =
      Except.ok (pack workers.length false ⊤ workers.length (some m) none none) := by
  simp only [eval_instance, load_graph, isEmpty_false_of_ne hne, Bool.false_eq_true,
    if_false, if_neg hlen, harc]

lemma eval_main {edges : List (ℕ × ℕ × ℚ)} {workers : List (ℤ × ℚ)} {route : List ℤ}
    {c : ℚ} {dist : List ℚ} {unc : List (ℕ × ℤ × ℚ × ℚ)}
    (hne : edges ≠ []) (hlen : ¬ route.length < 2)
    (harc : arcScan (graphN edges) (graphAdj edges) (route.zip route.tail) 0 =
      Except.ok c)
    (hdij : dijkstra_multi_source (graphN edges) (graphAdj edges) (dedupFirst route) =
      some dist)
    (hcov : coverageScan dist workers 0 = Except.ok unc) :
    eval_instance edges workers route = Except.ok
      (pack workers.length unc.isEmpty (↑c) unc.length none
        (if unc.isEmpty then none else some (unc.take 5))
        (if route.headI ≠ 0 ∨ route.getLastI ≠ 0 then some warnMsg else none)) := by
  simp only [eval_instance, load_graph, isEmpty_false_of_ne hne, Bool.false_eq_true,
    if_false, if_neg hlen, harc, hdij, hcov]

/-- Rows of a concrete adjacency list beyond `N` are empty, so a bounded check
of the well-formedness condition suffices. -/
lemma WF_of_forall_lt {N : ℕ} {adj : Adj} (hlen : adj.length = N)
    (h : ∀ u, u < N → ∀ p ∈ adjAt adj u, p.1 < N ∧ 0 ≤ p.2) :
    ∀ u, ∀ p ∈ adjAt adj u, p.1 < N ∧ 0 ≤ p.2 := by
  intro u p hp
  by_cases hu : u < N
  · exact h u hu p hp
  · exfalso
    have hempty : adjAt adj u = [] := List.getD_eq_default _ _ (by omega)
    rw [hempty] at hp
    simp at hp

/-! Claim theorems. -/

/-- C5: for every graph, worker list of size `W`, and route that fails
validation (fewer than 2 nodes, an out-of-range consecutive pair, or a
consecutive pair with no matching edge), the evaluator returns the record
`feasible = false`, infinite cost, `workers = W`, `uncovered = W`, with a
failure reason; the coverage check is never performed on this path — the
record is produced for an arbitrary worker list, including ones whose
coverage lookup would raise. -/
theorem C5_invalid_route (edges : List (ℕ × ℕ × ℚ)) (workers : List (ℤ × ℚ))
    (route : List ℤ) (hne : edges ≠ [])
    (hbad : route.length < 2 ∨ ∃ m, arcScan (graphN edges) (graphAdj edges)
      (route.zip route.tail) 0 = Except.error m) :
    ∃ m, eval_instance edges workers route =
      Except.ok (pack workers.length false ⊤ workers.length (some m) none none) := by
  rcases hbad with h | ⟨m, h⟩
  · exact ⟨_, eval_trivial hne h⟩
  · by_cases hlen : route.length < 2
    · exact ⟨_, eval_trivial hne hlen⟩
    · exact ⟨m, eval_arc_error hne hlen h⟩

theorem C5_invalid_route_w :
    ∃ m, eval_instance [(0,1,2),(1,2,3)] [(2,6)] [3] =
      Except.ok (pack 1 false ⊤ 1 (some m) none none) :=
  C5_invalid_route [(0,1,2),(1,2,3)] [(2,6)] [3] (by decide) (Or.inl (by decide))

/-- C6: route validation is fail-fast: with every pair before `(a, b)` clean
and `(a, b)` defective, the scan reports the defect of `(a, b)` whatever pairs
follow (they are never examined), and when `(a, b)` is out of range the
reported reason is the out-of-range one (that check runs before the
missing-edge lookup). -/
theorem C6_fail_fast (N : ℕ) (adj : Adj) (pre : List (ℤ × ℤ)) (a b : ℤ)
    (m : String) (hpre : ∀ p ∈ pre, pairDefect N adj p.1 p.2 = none)
    (hdef : pairDefect N adj a b = some m) :
    (∀ (rest : List (ℤ × ℤ)) (c : ℚ),
      arcScan N adj (pre ++ (a, b) :: rest) c = Except.error m) ∧
    (¬(0 ≤ a ∧ a < (N : ℤ) ∧ 0 ≤ b ∧ b < (N : ℤ)) → m = outOfRangeMsg a b) := by
  refine ⟨arcScan_first_defect pre hpre hdef, ?_⟩
  intro hr
  unfold pairDefect at hdef
  rw [if_pos (by simpa using hr)] at hdef
  simp only [Option.some.injEq] at hdef
  exact hdef.symm

theorem C6_fail_fast_w :
    arcScan 2 [[(1, (1 : ℚ))], []] ([((0:ℤ),(1:ℤ))] ++ (5, 0) :: [(99, 99)]) 0 =
      Except.error (outOfRangeMsg 5 0) :=
  (C6_fail_fast 2 [[(1, (1 : ℚ))], []] [((0:ℤ),(1:ℤ))] 5 0 (outOfRangeMsg 5 0)
    (by decide) (by decide)).1 [(99, 99)] 0

set_option maxRecDepth 40000 in
/-- C7: when every consecutive pair of the route has a matching edge,
validation succeeds and the cost is the sum, in route order, of the first
matching `(target, weight)` entry of each pair; in particular, on edges
`[(0,1,2.0),(1,2,3.0)]`, workers `[(2,6.0)]`, route `[0,1,2]` the evaluator
returns `feasible = true`, cost `5.0`, `uncovered = 0` (plus the advisory
warning, since the route does not end at node 0). -/
theorem C7_valid_cost :
    (∀ (N : ℕ) (adj : Adj) (pairs : List (ℤ × ℤ)) (c : ℚ),
      (∀ p ∈ pairs, pairDefect N adj p.1 p.2 = none) →
      arcScan N adj pairs c =
        Except.ok (c + (pairs.map (fun p => firstWeight adj p.1 p.2)).sum)) ∧
    eval_instance [(0,1,2),(1,2,3)] [(2,6)] [0,1,2] =
      Except.ok (pack 1 true ((5 : ℚ) : WithTop ℚ) 0 none none (some warnMsg)) := by
  refine ⟨fun N adj pairs c h => arcScan_ok pairs c h, by decide⟩

theorem C7_valid_cost_w :
    arcScan 2 [[(1, (7 : ℚ))], []] [((0:ℤ),(1:ℤ))] 0 =
      Except.ok (0 + ([((0:ℤ),(1:ℤ))].map
        (fun p => firstWeight [[(1, (7 : ℚ))], []] p.1 p.2)).sum) :=
  C7_valid_cost.1 2 [[(1, (7 : ℚ))], []] [((0:ℤ),(1:ℤ))] 0 (by decide)

/-- C8: every record the evaluator produces satisfies the feasibility
invariant: `feasible = true` implies `uncovered = 0` and a finite cost, a
positive uncovered count implies `feasible = false`, and a structural route
error (trivial route or a failing arc scan) implies `feasible = false`. -/
theorem C8_invariant (edges : List (ℕ × ℕ × ℚ)) (workers : List (ℤ × ℚ))
    (route : List ℤ) (rec : Result)
    (h : eval_instance edges workers route = Except.ok rec) :
    (rec.feasible = true → rec.uncovered = 0 ∧ rec.cost ≠ ⊤) ∧
    (0 < rec.uncovered → rec.feasible = false) ∧
    ((route.length < 2 ∨ ∃ m, arcScan (graphN edges) (graphAdj edges)
        (route.zip route.tail) 0 = Except.error m) → rec.feasible = false) := by
  by_cases hne : edges = []
  · subst hne
    rw [eval_empty] at h
    simp at h
  by_cases hlen : route.length < 2
  · rw [eval_trivial hne hlen] at h
    simp only [Except.ok.injEq] at h
    subst h
    exact ⟨by simp [pack], fun _ => rfl, fun _ => rfl⟩
  rcases harc : arcScan (graphN edges) (graphAdj edges) (route.zip route.tail) 0
    with m | c
  · rw [eval_arc_error hne hlen harc] at h
    simp only [Except.ok.injEq] at h
    subst h
    exact ⟨by simp [pack], fun _ => rfl, fun _ => rfl⟩
  · rcases hdij : dijkstra_multi_source (graphN edges) (graphAdj edges)
      (dedupFirst route) with _ | dist
    · have : eval_instance edges workers route =
          Except.error "nonterminating relaxation" := by
        simp only [eval_instance, load_graph, isEmpty_false_of_ne hne,
          Bool.false_eq_true, if_false, if_neg hlen, harc, hdij]
      rw [this] at h
      simp at h
    · rcases hcov : coverageScan dist workers 0 with e | unc
      · have : eval_instance edges workers route = Except.error e := by
          simp only [eval_instance, load_graph, isEmpty_false_of_ne hne,
            Bool.false_eq_true, if_false, if_neg hlen, harc, hdij, hcov]
        rw [this] at h
        simp at h
      · rw [eval_main hne hlen harc hdij hcov] at h
        simp only [Except.ok.injEq] at h
        subst h
        refine ⟨?_, ?_, ?_⟩
        · intro hfeas
          simp only [pack] at hfeas ⊢
          have hunc : unc = [] := List.isEmpty_iff.mp hfeas
          subst hunc
          exact ⟨rfl, by simp⟩
        · intro hunc
          simp only [pack] at hunc ⊢
          have : unc ≠ [] := by
            intro hcontr
            subst hcontr
            simp at hunc
          simpa [List.isEmpty_iff] using this
        · intro hbad
          rcases hbad with hb | ⟨m, hb⟩
          · exact absurd hb hlen
          · simp at hb

set_option maxRecDepth 40000 in
theorem C8_invariant_w :
    ((pack 1 true ((5 : ℚ) : WithTop ℚ) 0 none none (some warnMsg)).feasible = true →
      (pack 1 true ((5 : ℚ) : WithTop ℚ) 0 none none (some warnMsg)).uncovered = 0 ∧
      (pack 1 true ((5 : ℚ) : WithTop ℚ) 0 none none (some warnMsg)).cost ≠ ⊤) ∧
    (0 < (pack 1 true ((5 : ℚ) : WithTop ℚ) 0 none none (some warnMsg)).uncovered →
      (pack 1 true ((5 : ℚ) : WithTop ℚ) 0 none none (some warnMsg)).feasible = false) ∧
    ((([0,1,2] : List ℤ).length < 2 ∨ ∃ m, arcScan (graphN [(0,1,2),(1,2,3)])
        (graphAdj [(0,1,2),(1,2,3)]) (([0,1,2] : List ℤ).zip ([0,1,2] : List ℤ).tail) 0 =
        Except.error m) →
      (pack 1 true ((5 : ℚ) : WithTop ℚ) 0 none none (some warnMsg)).feasible = false) :=
  C8_invariant [(0,1,2),(1,2,3)] [(2,6)] [0,1,2]
    (pack 1 true ((5 : ℚ) : WithTop ℚ) 0 none none (some warnMsg))
    (by decide)

set_option maxRecDepth 40000 in
/-- C1 counterexample: a non-empty edge list can still abort evaluation — a
worker located at node 5 of a 2-node graph makes the coverage lookup raise an
index error, contradicting the claim that the empty edge set is the only
aborting condition. -/
theorem C1_cex :
    eval_instance [(0,1,1)] [(5,1)] [0,1] =
      Except.error "IndexError: list index out of range" ∧
    ([((0:ℕ),(1:ℕ),(1:ℚ))] : List (ℕ × ℕ × ℚ)) ≠ [] := by
  exact ⟨by decide, by decide⟩

/-- C1 (amended): with non-negative weights, an empty edge set aborts with the
configuration error, and for a non-empty edge set evaluation produces a result
record whenever every worker location lies in `[-N, N)`; worker locations
outside that band are the one further aborting condition (see the
counterexample). -/
theorem C1_amended (edges : List (ℕ × ℕ × ℚ)) (workers : List (ℤ × ℚ))
    (route : List ℤ) (hW : ∀ e ∈ edges, 0 ≤ e.2.2) :
    (edges = [] → eval_instance edges workers route =
      Except.error "grafo.csv vacío") ∧
    (edges ≠ [] →
      (∀ w ∈ workers, -((graphN edges : ℤ)) ≤ w.1 ∧ w.1 < (graphN edges : ℤ)) →
      ∃ rec, eval_instance edges workers route = Except.ok rec) := by
  constructor
  · intro h
    subst h
    exact eval_empty
  · intro hne hwloc
    by_cases hlen : route.length < 2
    · exact ⟨_, eval_trivial hne hlen⟩
    rcases harc : arcScan (graphN edges) (graphAdj edges) (route.zip route.tail) 0
      with m | c
    · exact ⟨_, eval_arc_error hne hlen harc⟩
    · obtain ⟨dist, P, hdij, hterm⟩ :=
        @dijkstra_ok (graphN edges) (graphAdj edges) (dedupFirst route) (load_graph_wf hW)
      obtain ⟨L, hcov⟩ := coverageScan_ok workers 0 (by
        intro w hw
        rw [hterm.hlen]
        exact hwloc w hw)
      exact ⟨_, eval_main hne hlen harc hdij hcov⟩

set_option maxRecDepth 40000 in
theorem C1_amended_w :
    ∃ rec, eval_instance [(0,1,1)] [(0,1)] [0,1] = Except.ok rec :=
  (C1_amended [(0,1,1)] [(0,1)] [0,1] (by decide)).2 (by decide)
    (by decide)

set_option maxRecDepth 40000 in
/-- C2 counterexample: on the spec's Example 2 inputs — edges
`[(0,1,2.0),(1,2,3.0)]`, workers `[(2,4.0)]`, route `[0,1,2]` — the evaluator
returns `feasible = true` with `uncovered = 0` (and cost `5.0`), not
`feasible = false` with `uncovered = 1` as claimed: node 2 lies on the route,
so the worker's distance is `0`, within its radius `4.0`. -/
theorem C2_cex :
    eval_instance [(0,1,2),(1,2,3)] [(2,4)] [0,1,2] =
      Except.ok (pack 1 true ((5 : ℚ) : WithTop ℚ) 0 none none (some warnMsg)) := by
  decide

set_option maxRecDepth 40000 in
/-- C2 (amended): on the Example 2 inputs the evaluator returns
`feasible = true`, cost `5.0`, `uncovered = 0` (plus the advisory warning):
the worker at node 2 is at computed distance `0` from the route, within its
radius `4.0`. -/
theorem C2_amended :
    eval_instance [(0,1,2),(1,2,3)] [(2,4)] [0,1,2] =
      Except.ok (pack 1 true ((5 : ℚ) : WithTop ℚ) 0 none none (some warnMsg)) ∧
    (dijkstra_multi_source 3 (graphAdj [(0,1,2),(1,2,3)]) (dedupFirst [0,1,2])).map
      (fun dist => dAt dist 2) = some 0 := by
  exact ⟨by decide, by decide⟩

set_option maxRecDepth 40000 in
/-- C3 counterexample: with the single edge `0 → 1` of weight `2·INF`
(non-negative) and seed `0`, node 1 is reachable by a walk of weight
`0 + 2·INF`, yet the computed entry stays at the sentinel `INF`, which differs
from the minimum walk weight — so the computed table is not always the
minimum over seeds of the shortest-walk weight, and a reachable node can keep
the sentinel. -/
theorem C3_cex :
    dijkstra_multi_source 2 [[(1, 2 * INF)], []] [0] = some [0, INF] ∧
    IsPath [[(1, 2 * INF)], []] 0 1 (0 + 2 * INF) ∧
    (INF : ℚ) ≠ 0 + 2 * INF := by
  refine ⟨by decide, ?_, by norm_num [INF]⟩
  exact IsPath.snoc (IsPath.refl 0) (by decide)

/-- C3 (amended): for non-negative weights the computation terminates and, for
each node `u`: a finite entry is the minimum walk weight from the in-range
seeds (attained by some walk); the sentinel entry means every seed walk (if
any) weighs at least `INF = 10^18`; an unreachable node keeps the sentinel.
Duplicate and out-of-range extra sources do not affect the result. -/
theorem C3_amended (N : ℕ) (adj : Adj) (sources : List ℤ)
    (hlen : adj.length = N) (hW : ∀ u, ∀ p ∈ adjAt adj u, p.1 < N ∧ 0 ≤ p.2) :
    ∃ dist, dijkstra_multi_source N adj sources = some dist ∧ dist.length = N ∧
      (∀ u, u < N →
        (dAt dist u < INF →
          FromSeeds adj N sources u (dAt dist u) ∧
          ∀ c, FromSeeds adj N sources u c → dAt dist u ≤ c) ∧
        (dAt dist u = INF → ∀ c, FromSeeds adj N sources u c → INF ≤ c) ∧
        ((¬ ∃ c, FromSeeds adj N sources u c) → dAt dist u = INF)) ∧
      (∀ junk : List ℤ, (∀ z ∈ junk, z ∈ sources ∨ z < 0 ∨ (N : ℤ) ≤ z) →
        dijkstra_multi_source N adj (sources ++ junk) = some dist) := by
  have hWF : WFAdj N adj := ⟨hlen, hW⟩
  obtain ⟨dist, P, hd, hterm⟩ := dijkstra_ok hWF
  refine ⟨dist, hd, hterm.hlen, ?_, ?_⟩
  · intro u hu
    refine ⟨?_, ?_, ?_⟩
    · intro hfin
      constructor
      · rcases hterm.hreal u hu with h | ⟨-, hfs⟩
        · rw [h] at hfin
          exact absurd hfin (lt_irrefl _)
        · exact hfs
      · rintro c ⟨s, hs, hp⟩
        by_cases hc : c < INF
        · exact terminal_min hWF hterm hp hs hc
        · exact le_trans (hterm.hle u) (le_of_not_lt hc)
    · rintro hINF c ⟨s, hs, hp⟩
      by_cases hc : c < INF
      · have hcl := terminal_min hWF hterm hp hs hc
        rw [hINF] at hcl
        exact absurd (lt_of_le_of_lt hcl hc) (lt_irrefl _)
      · exact le_of_not_lt hc
    · intro hnone
      rcases hterm.hreal u hu with h | ⟨-, hfs⟩
      · exact h
      · exact absurd ⟨_, hfs⟩ hnone
  · intro junk hjunk
    have hiff : ∀ x, validSeed N (sources ++ junk) x ↔ validSeed N sources x := by
      intro x
      unfold validSeed
      constructor
      · rintro ⟨hmem, hx⟩
        refine ⟨?_, hx⟩
        rcases List.mem_append.mp hmem with h | h
        · exact h
        · rcases hjunk _ h with h' | h' | h'
          · exact h'
          · omega
          · omega
      · rintro ⟨hmem, hx⟩
        exact ⟨List.mem_append.mpr (Or.inl hmem), hx⟩
    rw [dijkstra_unique hWF hiff, hd]

theorem C3_amended_w :
    ∃ dist, dijkstra_multi_source 2 [[(1, (1 : ℚ))], []] [0] = some dist ∧
      dist.length = 2 := by
  obtain ⟨dist, h1, h2, -⟩ :=
    C3_amended 2 [[(1, (1 : ℚ))], []] [0] rfl (WF_of_forall_lt rfl (by decide))
  exact ⟨dist, h1, h2⟩

set_option maxRecDepth 40000 in
/-- C4 counterexample: the worker at unreachable node 2 (computed distance is
the sentinel `INF`) with the huge radius `2·INF` is counted as covered
(`uncovered = 0`, `feasible = true`), contradicting "always uncovered
regardless of how large its radius is". -/
theorem C4_cex :
    eval_instance [(0,1,1),(2,0,5)] [(2, 2 * INF)] [0,1] =
      Except.ok (pack 1 true ((1 : ℚ) : WithTop ℚ) 0 none none (some warnMsg)) ∧
    (dijkstra_multi_source 3 (graphAdj [(0,1,1),(2,0,5)]) (dedupFirst [0,1])).map
      (fun dist => dAt dist 2) = some INF := by
  exact ⟨by decide, by decide⟩

/-- C4 (amended): for a structurally valid route, a worker whose computed
distance entry is the sentinel `INF` is counted as uncovered provided its
radius satisfies `r + 1e-9 < INF`; the record is infeasible with a positive
uncovered count. -/
theorem C4_amended (edges : List (ℕ × ℕ × ℚ)) (route : List ℤ)
    (workers : List (ℤ × ℚ)) (dist : List ℚ) (k : ℕ) (v : ℤ) (r : ℚ) (c : ℚ)
    (L : List (ℕ × ℤ × ℚ × ℚ))
    (hne : edges ≠ []) (hlen : ¬ route.length < 2)
    (harc : arcScan (graphN edges) (graphAdj edges) (route.zip route.tail) 0 =
      Except.ok c)
    (hdij : dijkstra_multi_source (graphN edges) (graphAdj edges)
      (dedupFirst route) = some dist)
    (hk : workers[k]? = some (v, r))
    (hvinf : pyGetDist dist v = Except.ok INF)
    (hr : r + tol < INF)
    (hcov : coverageScan dist workers 0 = Except.ok L) :
    (k, v, r, INF) ∈ L ∧
    ∃ rec, eval_instance edges workers route = Except.ok rec ∧
      rec.feasible = false ∧ 0 < rec.uncovered := by
  have hmem : (0 + k, v, r, INF) ∈ L := coverageScan_mem hvinf hr workers k 0 L hk hcov
  rw [Nat.zero_add] at hmem
  have hLne : L ≠ [] := by
    intro h
    subst h
    simp at hmem
  refine ⟨hmem, _, eval_main hne hlen harc hdij hcov, ?_, ?_⟩
  · simp only [pack]
    rw [List.isEmpty_eq_false_iff_exists_mem.mpr ⟨_, hmem⟩]
  · simp only [pack]
    exact List.length_pos.mpr hLne

set_option maxRecDepth 40000 in
theorem C4_amended_w :
    ((0 : ℕ), (2 : ℤ), (1 : ℚ), INF) ∈ [((0 : ℕ), (2 : ℤ), (1 : ℚ), INF)] ∧
    ∃ rec, eval_instance [(0,1,1),(2,0,5)] [(2, 1)] [0,1] = Except.ok rec ∧
      rec.feasible = false ∧ 0 < rec.uncovered :=
  C4_amended [(0,1,1),(2,0,5)] [0,1] [(2, 1)] [0, 0, INF] 0 2 1 1
    [(0, 2, 1, INF)] (by decide) (by decide) (by decide)
    (by decide) (by decide) (by decide)
    (by decide) (by decide)

/-- C9: for non-negative weights, adding one more seed can only decrease or
preserve every node's computed distance, never increase it: both runs
terminate and the run seeded with `S ++ [s]` is pointwise no larger than the
run seeded with `S`. -/
theorem C9_seed_monotone (N : ℕ) (adj : Adj) (S : List ℤ) (s : ℤ)
    (hlen : adj.length = N) (hW : ∀ u, ∀ p ∈ adjAt adj u, p.1 < N ∧ 0 ≤ p.2) :
    ∃ dS dS', dijkstra_multi_source N adj S = some dS ∧
      dijkstra_multi_source N adj (S ++ [s]) = some dS' ∧
      ∀ u, u < N → dAt dS' u ≤ dAt dS u := by
  have hWF : WFAdj N adj := ⟨hlen, hW⟩
  obtain ⟨dS, P1, h1, t1⟩ := @dijkstra_ok N adj S hWF
  obtain ⟨dS', P2, h2, t2⟩ := @dijkstra_ok N adj (S ++ [s]) hWF
  refine ⟨dS, dS', h1, h2, ?_⟩
  intro u hu
  rcases t1.hreal u hu with h | ⟨hfin, hfs⟩
  · rw [h]
    exact t2.hle u
  · obtain ⟨s0, hs0, hp⟩ := hfs
    exact terminal_min hWF t2 hp
      ⟨List.mem_append.mpr (Or.inl hs0.1), hs0.2⟩ hfin

theorem C9_seed_monotone_w :
    ∃ dS dS', dijkstra_multi_source 2 [[(1, (1 : ℚ))], []] [0] = some dS ∧
      dijkstra_multi_source 2 [[(1, (1 : ℚ))], []] ([0] ++ [1]) = some dS' ∧
      ∀ u, u < 2 → dAt dS' u ≤ dAt dS u :=
  C9_seed_monotone 2 [[(1, (1 : ℚ))], []] [0] 1 rfl
    (WF_of_forall_lt rfl (by decide))

/-- C10: for a structurally valid route over an `N`-node graph and a single
worker whose location `v` satisfies `-N ≤ v < 0`, evaluation does not raise:
the coverage lookup silently reads the distance entry at index `N + v`
(Python negative indexing), and the worker's covered status is decided by
that entry against its radius. -/
theorem C10_negative_worker (edges : List (ℕ × ℕ × ℚ)) (route : List ℤ)
    (v : ℤ) (r : ℚ) (c : ℚ) (dist : List ℚ)
    (hne : edges ≠ []) (hlen : ¬ route.length < 2)
    (harc : arcScan (graphN edges) (graphAdj edges) (route.zip route.tail) 0 =
      Except.ok c)
    (hdij : dijkstra_multi_source (graphN edges) (graphAdj edges)
      (dedupFirst route) = some dist)
    (hneg : -((graphN edges : ℤ)) ≤ v ∧ v < 0) :
    ∃ rec, eval_instance edges [(v, r)] route = Except.ok rec ∧
      (rec.feasible = true ↔
        ¬ (r + tol < dAt dist ((graphN edges : ℤ) + v).toNat)) ∧
      rec.uncovered =
        (if r + tol < dAt dist ((graphN edges : ℤ) + v).toNat then 1 else 0) := by
  have hdlen : dist.length = graphN edges := dijkstra_length hdij
  have hget : pyGetDist dist v =
      Except.ok (dAt dist ((graphN edges : ℤ) + v).toNat) := by
    unfold pyGetDist
    rw [if_neg (by omega), if_pos (by omega), hdlen]
  have hcov : coverageScan dist [(v, r)] 0 = Except.ok
      (if r + tol < dAt dist ((graphN edges : ℤ) + v).toNat
        then [(0, v, r, dAt dist ((graphN edges : ℤ) + v).toNat)] else []) := by
    simp only [coverageScan, hget]
  refine ⟨_, eval_main hne hlen harc hdij hcov, ?_, ?_⟩
  · by_cases hc : r + tol < dAt dist ((graphN edges : ℤ) + v).toNat
    · rw [if_pos hc]
      simp [pack, hc]
    · rw [if_neg hc]
      simp [pack, hc]
  · by_cases hc : r + tol < dAt dist ((graphN edges : ℤ) + v).toNat
    · rw [if_pos hc, if_pos hc]
      rfl
    · rw [if_neg hc, if_neg hc]
      rfl

set_option maxRecDepth 40000 in
theorem C10_negative_worker_w :
    ∃ rec, eval_instance [(0,1,2),(1,2,3)] [(-1, 0)] [0,1,2] = Except.ok rec ∧
      (rec.feasible = true ↔
        ¬ ((0 : ℚ) + tol < dAt [0,0,0] ((graphN [(0,1,2),(1,2,3)] : ℤ) + -1).toNat)) ∧
      rec.uncovered = (if (0 : ℚ) + tol <
          dAt [0,0,0] ((graphN [(0,1,2),(1,2,3)] : ℤ) + -1).toNat then 1 else 0) :=
  C10_negative_worker [(0,1,2),(1,2,3)] [0,1,2] (-1) 0 5 [0,0,0]
    (by decide) (by decide) (by decide)
    (by decide) (by decide)

end Evaluar
